import Mathlib

/-!
Verification of the simulation core of the `tetris2` repository
(`src/tetris.py` and its modular split `src/tetris_board.py`,
`src/tetris_piece.py`, `src/tetris_input.py`, `src/tetris_rng.py`,
`src/main.py`, `src/tetris_config.py`).

The Python code is shallowly embedded: pure helper functions become Lean
functions over lists and integers, the stateful controllers become explicit
state-passing functions, and the game's lock procedure becomes a transition
relation on an explicit state record.  Machine arithmetic (the 32-bit LCG)
is modelled on `Nat` with explicit `% 2^32`.
-/

namespace Tetris2

/-- The seven tetromino kinds.  The Python code identifies them by the
one-character strings "I","J","L","O","S","T","Z"; we use an enumeration
with the same seven symbols. -/
inductive Kind where
  | I | J | L | O | S | T | Z
deriving DecidableEq, Repr

/-- A board cell: empty (`none`) or holding the locking piece's type tag
(Python: `None` or the piece-type string). -/
abbrev Cell := Option Kind

/-- A board row (Python: a list of cells). -/
abbrev Row := List Cell

/-- The board: `ROWS` rows of `COLS` cells, row 0 on top
(Python: `Board = List[List[Optional[str]]]`). -/
abbrev Board := List Row

/-- `COLS = 10` (tetris_piece.py / tetris.py). -/
def COLS : ℕ := 10

/-- `ROWS = 20` (tetris_piece.py / tetris.py). -/
def ROWS : ℕ := 20

/-- Piece record: type tag, shape grid (entries are the ints of the Python
shape matrices; nonzero means occupied), rotation state, and the board
coordinates of the shape origin.  `y` may be negative (above the board). -/
structure Piece where
  t : Kind
  shape : List (List ℕ)
  state : ℕ
  x : ℤ
  y : ℤ
deriving DecidableEq, Repr

/-- Shape-cell lookup, mirroring `piece.shape[sy][sx]` (out-of-range reads
default to an unoccupied cell; the Python loops never go out of range). -/
def shapeCell (shape : List (List ℕ)) (sy sx : ℕ) : ℕ :=
  (shape.getD sy []).getD sx 0

/-- Board-cell lookup, mirroring `board[r][c]` for in-range indices. -/
def boardCell (b : Board) (r c : ℤ) : Cell :=
  (b.getD r.toNat []).getD c.toNat none

/-- `collide(board, piece)` from src/tetris_board.py lines 8-15
(= src/tetris.py lines 279-290): scan every occupied shape cell; report a
collision on a wall/floor violation or an overlap with a locked cell. -/
def collide (b : Board) (p : Piece) : Bool :=
  (List.range p.shape.length).any fun sy =>
    (List.range (p.shape.getD sy []).length).any fun sx =>
      if shapeCell p.shape sy sx = 0 then false
      else if p.x + sx < 0 ∨ (COLS : ℤ) ≤ p.x + sx ∨ (ROWS : ℤ) ≤ p.y + sy then true
      else if 0 ≤ p.y + sy ∧ (boardCell b (p.y + sy) (p.x + sx)).isSome then true
      else false

/-- The collision condition as the specification states it: some occupied
shape cell maps to a column `< 0` or `≥ 10`, or a row `≥ 20`, or to a
non-negative row overlapping an already-locked cell (negative rows are
exempt from the overlap check but still wall-checked). -/
def SpecCollides (b : Board) (p : Piece) : Prop :=
  ∃ sy sx, sy < p.shape.length ∧ sx < (p.shape.getD sy []).length ∧
    shapeCell p.shape sy sx ≠ 0 ∧
    (p.x + sx < 0 ∨ (COLS : ℤ) ≤ p.x + sx ∨ (ROWS : ℤ) ≤ p.y + sy ∨
      (0 ≤ p.y + sy ∧ (boardCell b (p.y + sy) (p.x + sx)).isSome))

/-- The seven base shapes, `SHAPES` from src/tetris_piece.py lines 8-16. -/
def SHAPES : Kind → List (List ℕ)
  | .I => [[0,0,0,0],[1,1,1,1],[0,0,0,0],[0,0,0,0]]
  | .J => [[1,0,0],[1,1,1],[0,0,0]]
  | .L => [[0,0,1],[1,1,1],[0,0,0]]
  | .O => [[1,1],[1,1]]
  | .S => [[0,1,1],[1,1,0],[0,0,0]]
  | .T => [[0,1,0],[1,1,1],[0,0,0]]
  | .Z => [[1,1,0],[0,1,1],[0,0,0]]

/-- Write one board cell, mirroring `board[r][c] = t` for in-range indices.
Out-of-range writes are a no-op here (`List.set` ignores them); the Python
statement can only be reached out of range from states where `collide`
already holds, and every claim uses `merge` under `collide = false`. -/
def setCell (b : Board) (r c : ℕ) (t : Kind) : Board :=
  b.set r ((b.getD r []).set c (some t))

/-- Inner loop of `merge` (src/tetris_board.py lines 17-22 = src/tetris.py
lines 293-300): write the occupied cells of shape row `sy`, skipping cells
whose board row `piece.y + sy` is negative. -/
def mergeRowLoop (p : Piece) (sy : ℕ) : List ℕ → Board → Board
  | [], b => b
  | sx :: rest, b =>
      mergeRowLoop p sy rest
        (if shapeCell p.shape sy sx ≠ 0 ∧ 0 ≤ p.y + sy
         then setCell b (p.y + sy).toNat (p.x + sx).toNat p.t else b)

/-- Outer loop of `merge`: iterate the shape rows in order. -/
def mergeLoop (p : Piece) : List ℕ → Board → Board
  | [], b => b
  | sy :: rest, b =>
      mergeLoop p rest (mergeRowLoop p sy (List.range (p.shape.getD sy []).length) b)

/-- `merge(board, piece)` from src/tetris_board.py lines 17-22. -/
def merge (b : Board) (p : Piece) : Board :=
  mergeLoop p (List.range p.shape.length) b

/-- The all-empty row inserted at the top per cleared line
(`board.insert(0, [None]*COLS)`). -/
def emptyRow : Row := List.replicate COLS none

/-- A row is full iff every column is non-empty
(`all(board[y][x] for x in range(COLS))`). -/
def isFull (r : Row) : Bool :=
  (List.range COLS).all fun x => (r.getD x none).isSome

/-- Number of full rows of a board. -/
def countFull (b : Board) : ℕ := b.countP fun r => isFull r

/-- The `while` loop of `sweep` (src/tetris_board.py lines 24-30 =
src/tetris.py lines 303-314), with `ypos` standing for the Python index
`y + 1` (so the loop exit `y < 0` is `ypos = 0`), and an explicit fuel
bounding the iterations of the in-place loop (each iteration either
lowers `ypos` or removes one full row, so `ypos + countFull` many
iterations always suffice; `sweep` supplies enough fuel). -/
def sweepLoop : ℕ → Board → ℕ → ℕ → Board × ℕ
  | 0, b, _, c => (b, c)
  | fuel + 1, b, ypos, c =>
    if ypos = 0 then (b, c)
    else if isFull (b.getD (ypos - 1) []) then
      sweepLoop fuel (emptyRow :: b.eraseIdx (ypos - 1)) ypos (c + 1)
    else sweepLoop fuel b (ypos - 1) c

/-- `sweep(board)` from src/tetris_board.py lines 24-30: clear the full
rows bottom-to-top and return the new board with the clear count. -/
def sweep (b : Board) : Board × ℕ :=
  sweepLoop (ROWS + countFull b) b ROWS 0

/-- The shape has at least one occupied cell (every real tetromino shape
does; the Python `ghost_y` loop would not terminate on an all-empty
shape). -/
def hasBlock (shape : List (List ℕ)) : Bool :=
  (List.range shape.length).any fun sy =>
    (List.range (shape.getD sy []).length).any fun sx =>
      decide (shapeCell shape sy sx ≠ 0)

/-- The descent loop of `ghost_y` (src/tetris_board.py lines 32-37 =
src/tetris.py lines 317-323): step down from `y` until the next row
collides and return the last non-colliding row.  Termination: any
occupied shape cell must stay above row `ROWS`, so `y` cannot grow past
the floor. -/
def ghostAux (b : Board) (p : Piece) (h : hasBlock p.shape = true) (y : ℤ) : ℤ :=
  if hc : collide b ⟨p.t, p.shape, p.state, p.x, y + 1⟩ = true then y
  else ghostAux b p h (y + 1)
termination_by (20 - y).toNat
decreasing_by
  simp only [hasBlock, List.any_eq_true, List.mem_range, decide_eq_true_eq] at h
  obtain ⟨sy, hsy, sx, hsx, hocc⟩ := h
  simp only [collide, List.any_eq_true, List.mem_range] at hc
  push_neg at hc
  have hbody := hc sy hsy sx hsx
  have hbound : ¬ ((ROWS : ℤ) ≤ y + 1 + sy) := by
    intro hge
    rw [if_neg hocc, if_pos (Or.inr (Or.inr hge))] at hbody
    exact hbody rfl
  have hR : (ROWS : ℤ) = 20 := rfl
  rw [hR] at hbound
  omega

/-- `ghost_y(board, piece)`: the row at which the piece would come to
rest.  The Python works on a deep copy and never mutates its inputs; the
embedding is pure by construction. -/
def ghost_y (b : Board) (p : Piece) (h : hasBlock p.shape = true) : ℤ :=
  ghostAux b p h p.y

/-- `rotate_cw` (src/tetris_piece.py line 18): `zip(*m[::-1])`, i.e. the
transpose of the reversed row list.  (For the rectangular shape matrices
used by the game this matches Python `zip`; `zip`'s truncation behaviour
on ragged input is not exercised.) -/
def rotate_cw (m : List (List ℕ)) : List (List ℕ) := m.reverse.transpose

/-- `rotate_ccw` (src/tetris_piece.py line 19): `zip(*m)` reversed. -/
def rotate_ccw (m : List (List ℕ)) : List (List ℕ) := m.transpose.reverse

/-- `JLSTZ_KICKS` (src/tetris_piece.py lines 21-30).  The catch-all arm
models the Python `dict.get((old,new), [(0,0)])` fallback. -/
def JLSTZ_KICKS : ℕ × ℕ → List (ℤ × ℤ)
  | (0,1) => [(0,0),(-1,0),(-1,1),(0,-2),(-1,-2)]
  | (1,0) => [(0,0),(1,0),(1,-1),(0,2),(1,2)]
  | (1,2) => [(0,0),(1,0),(1,-1),(0,2),(1,2)]
  | (2,1) => [(0,0),(-1,0),(-1,1),(0,-2),(-1,-2)]
  | (2,3) => [(0,0),(1,0),(1,1),(0,-2),(1,-2)]
  | (3,2) => [(0,0),(-1,0),(-1,-1),(0,2),(-1,2)]
  | (3,0) => [(0,0),(-1,0),(-1,-1),(0,2),(-1,2)]
  | (0,3) => [(0,0),(1,0),(1,1),(0,-2),(1,-2)]
  | _ => [(0,0)]

/-- `I_KICKS` (src/tetris_piece.py lines 31-40). -/
def I_KICKS : ℕ × ℕ → List (ℤ × ℤ)
  | (0,1) => [(0,0),(-2,0),(1,0),(-2,-1),(1,2)]
  | (1,0) => [(0,0),(2,0),(-1,0),(2,1),(-1,-2)]
  | (1,2) => [(0,0),(-1,0),(2,0),(-1,2),(2,-1)]
  | (2,1) => [(0,0),(1,0),(-2,0),(1,-2),(-2,1)]
  | (2,3) => [(0,0),(2,0),(-1,0),(2,1),(-1,-2)]
  | (3,2) => [(0,0),(-2,0),(1,0),(-2,-1),(1,2)]
  | (3,0) => [(0,0),(1,0),(-2,0),(1,-2),(-2,1)]
  | (0,3) => [(0,0),(-1,0),(2,0),(-1,2),(2,-1)]
  | _ => [(0,0)]

/-- Target rotation state: `(old + (1 if cw else -1)) % 4` with Python's
always-non-negative `%` (Lean's `%` on `ℤ` has the same convention). -/
def newRotState (old : ℕ) (cw : Bool) : ℕ :=
  ((((old : ℤ) + (if cw then 1 else -1)) % 4)).toNat

/-- The kick-candidate loop of `try_rotate`: build each trial piece in
listed order and return the first that does not collide. -/
def tryRotateLoop (b : Board) (t : Kind) (ns : List (List ℕ)) (st : ℕ)
    (x y : ℤ) : List (ℤ × ℤ) → Option Piece
  | [] => none
  | (dx, dy) :: rest =>
    let test : Piece := ⟨t, ns, st, x + dx, y + dy⟩
    if collide b test = true then tryRotateLoop b t ns st x y rest
    else some test

/-- `try_rotate(board, piece, cw)` from src/tetris_piece.py lines 61-70
(= `rotate_with_srs`, src/tetris.py lines 352-362). -/
def try_rotate (b : Board) (p : Piece) (cw : Bool) : Option Piece :=
  let ns := if cw then rotate_cw p.shape else rotate_ccw p.shape
  let kicks := (if p.t = Kind.I then I_KICKS else JLSTZ_KICKS)
    (p.state, newRotState p.state cw)
  tryRotateLoop b p.t ns (newRotState p.state cw) p.x p.y kicks

/-- The trial pieces `try_rotate` builds, in kick order. -/
def rotationTrials (p : Piece) (cw : Bool) : List Piece :=
  (((if p.t = Kind.I then I_KICKS else JLSTZ_KICKS)
      (p.state, newRotState p.state cw)).map
    fun d => ⟨p.t, if cw then rotate_cw p.shape else rotate_ccw p.shape,
              newRotState p.state cw, p.x + d.1, p.y + d.2⟩ : List Piece)

/-- `ShiftRepeat` state (src/tetris_input.py lines 7-9 = src/tetris.py
lines 375-379): held direction, hold duration, repeat timer, and whether
the immediate first step has fired.  src/tetris_input.py initializes the
timers to the integer 0 and src/main.py feeds it the integer millisecond
deltas of `clock.tick`, so the timers stay integers and are embedded as
`ℤ` (the src/tetris.py variant stores floats, but performs the same exact
arithmetic whenever the tick length is a whole number of ms). -/
structure ShiftRepeat where
  dir : ℤ
  held_ms : ℤ
  last : ℤ
  initial : Bool
deriving DecidableEq, Repr

/-- `ShiftRepeat.__init__`. -/
def ShiftRepeat.start : ShiftRepeat := ⟨0, 0, 0, false⟩

/-- `ShiftRepeat.update(dt, left, right)` from src/tetris_input.py lines
10-24 (= src/tetris.py lines 381-413), with the live-config reads
`CONFIG["DAS_MS"]` / `CONFIG["ARR_MS"]` passed as the `das` / `arr`
arguments (their configured defaults are 170 and 30). -/
def ShiftRepeat.update (s : ShiftRepeat) (dt : ℤ) (left right : Bool)
    (das arr : ℤ) : ShiftRepeat × ℤ :=
  let nd : ℤ := (if left then -1 else 0) + (if right then 1 else 0)
  let s0 : ShiftRepeat := if nd ≠ s.dir then ⟨nd, 0, 0, false⟩ else s
  if s0.dir = 0 then (s0, 0)
  else
    let s1 : ShiftRepeat := { s0 with held_ms := s0.held_ms + dt }
    if s1.initial = false then ({ s1 with initial := true }, s1.dir)
    else if s1.held_ms < das then (s1, 0)
    else if arr = 0 then (s1, s1.dir)
    else
      let s2 : ShiftRepeat := { s1 with last := s1.last + dt }
      if arr ≤ s2.last then ({ s2 with last := 0 }, s2.dir)
      else (s2, 0)

/-- Drive the controller for `n` fixed ticks of 1ms each with only the
right key held, DAS = 170, ARR = 30, collecting the emitted step of every
tick (tick `i` happens at time `t = i` ms after the fresh press). -/
def runTicks : ℕ → ShiftRepeat → List ℤ
  | 0, _ => []
  | n + 1, s =>
    let r := s.update 1 false true 170 30
    r.2 :: runTicks n r.1

/-- `NESRandom` state (src/tetris_rng.py lines 8-13 = src/tetris.py lines
190-196): 32-bit LCG state, previously emitted piece index, first-piece
avoidance flag. -/
structure NESRandom where
  state : ℕ
  prev_index : Option ℕ
  avoid_szo_first : Bool
deriving DecidableEq, Repr

/-- `NESRandom.PIECES = ["I","J","L","O","S","T","Z"]`. -/
def PIECES : List Kind := [.I, .J, .L, .O, .S, .T, .Z]

/-- `_lcg_next`: `state = (state * 0x41C64E6D + 0x3039) & 0xFFFFFFFF`. -/
def lcg_next (s : ℕ) : ℕ := (s * 0x41C64E6D + 0x3039) % 2 ^ 32

/-- `_rand`: advance the LCG and return `(new state, (state >> 16) & 0x7FFF)`. -/
def rand15 (s : ℕ) : ℕ × ℕ :=
  let s' := lcg_next s
  (s', s' / 2 ^ 16 % 2 ^ 15)

/-- `_rand_choice7`: `_rand() % 7`. -/
def rand_choice7 (s : ℕ) : ℕ × ℕ :=
  let r := rand15 s
  (r.1, r.2 % 7)

/-- `bad = {PIECES.index("S"), PIECES.index("Z"), PIECES.index("O")}`. -/
def badIndices : List ℕ := [PIECES.indexOf .S, PIECES.indexOf .Z, PIECES.indexOf .O]

/-- The first-piece avoidance loop `while cand in bad: cand = self._rand_choice7()`,
with explicit fuel for the unbounded Python loop (`none` = fuel ran out). -/
def avoidLoop : ℕ → ℕ → ℕ → Option (ℕ × ℕ)
  | 0, _, _ => none
  | fuel + 1, s, cand =>
    if cand ∈ badIndices then
      let r := rand_choice7 s
      avoidLoop fuel r.1 r.2
    else some (s, cand)

/-- `NESRandom.next_piece` from src/tetris_rng.py lines 25-35
(= src/tetris.py lines 215-240), state-passing style: returns the new
generator and the drawn kind (`none` only when the avoidance loop's fuel
runs out). -/
def next_piece (fuel : ℕ) (g : NESRandom) : Option (NESRandom × Kind) :=
  let r0 := rand_choice7 g.state
  let step2 : Option (ℕ × ℕ) :=
    match g.prev_index, g.avoid_szo_first with
    | none, true => avoidLoop fuel r0.1 r0.2
    | _, _ => some r0
  match step2 with
  | none => none
  | some (s2, c2) =>
    let r3 : ℕ × ℕ :=
      match g.prev_index with
      | some p =>
        if c2 = p then
          let rr := rand15 s2
          if rr.2 % 2 = 1 then rand_choice7 rr.1 else (rr.1, c2)
        else (s2, c2)
      | none => (s2, c2)
    some (⟨r3.1, some r3.2, g.avoid_szo_first⟩, PIECES.getD r3.2 .I)

/-- Modelled from the spec (§4.1): `state = (state * 0x41C64E6D + 0x3039) mod 2^32`. -/
def specAdvance (s : ℕ) : ℕ := (s * 0x41C64E6D + 0x3039) % 2 ^ 32

/-- Modelled from the spec (§4.1): the 15-bit value is bits 16-30 of the state. -/
def specValue15 (s : ℕ) : ℕ := s / 2 ^ 16 % 2 ^ 15

/-- Modelled from the spec (§4.1): advance, then map the 15-bit value to a
candidate index modulo 7. -/
def specCandidate (s : ℕ) : ℕ × ℕ :=
  let s' := specAdvance s
  (s', specValue15 s' % 7)

/-- The avoided set, per the spec: the kinds whose codes are S, Z, O. -/
def specAvoided : List Kind := [.S, .Z, .O]

/-- Modelled from the spec (§4.1, draw step 2): redraw candidates while the
candidate belongs to the avoided set, with the same fuel convention. -/
def specRedraw : ℕ → ℕ → ℕ → Option (ℕ × ℕ)
  | 0, _, _ => none
  | fuel + 1, s, cand =>
    if PIECES.getD cand .I ∈ specAvoided then
      let r := specCandidate s
      specRedraw fuel r.1 r.2
    else some (s, cand)

/-- Modelled from the spec (§4.1): the full `draw()` algorithm, steps 1-4,
written from the spec's words for comparison with `next_piece`. -/
def specDraw (fuel : ℕ) (g : NESRandom) : Option (NESRandom × Kind) :=
  let r1 := specCandidate g.state
  let afterAvoid : Option (ℕ × ℕ) :=
    if g.prev_index = none ∧ g.avoid_szo_first = true then
      specRedraw fuel r1.1 r1.2
    else some r1
  match afterAvoid with
  | none => none
  | some (s2, c2) =>
    let final : ℕ × ℕ :=
      match g.prev_index with
      | some p =>
        if c2 = p then
          let s3 := specAdvance s2
          if specValue15 s3 % 2 = 1 then
            (specAdvance s3, specValue15 (specAdvance s3) % 7)
          else (s3, c2)
        else (s2, c2)
      | none => (s2, c2)
    some (⟨final.1, some final.2, g.avoid_szo_first⟩, PIECES.getD final.2 .I)

/-- `SCORE_TABLE = {1: 40, 2: 100, 3: 300, 4: 1200}` (src/tetris.py line
102); other keys raise `KeyError` in Python and are unreachable in play
(a lock clears at most 4 rows), embedded with default 0. -/
def SCORE_TABLE : ℕ → ℕ
  | 1 => 40
  | 2 => 100
  | 3 => 300
  | 4 => 1200
  | _ => 0

/-- `LINES_PER_LEVEL = 10` (src/tetris.py line 101). -/
def LINES_PER_LEVEL : ℕ := 10

/-- The line-clear award of src/main.py line 187 / 261:
`cleared * (level + 1) * 100`. -/
def mainClearAward (n level : ℕ) : ℕ := n * (level + 1) * 100

/-- The line-clear award of src/tetris.py line 631 / 693:
`SCORE_TABLE[cleared] * (level + 1)`. -/
def tetrisClearAward (n level : ℕ) : ℕ := SCORE_TABLE n * (level + 1)

/-- Python `int()` truncation (toward zero) of a rational. -/
def truncQ (q : ℚ) : ℤ := Int.tdiv q.num q.den

/-- `gravity_interval(level)` from src/main.py lines 13-16
(= `gravity_interval_ms`, src/tetris.py lines 161-163):
`max(60, int((1000 - level*60) / max(mult, 0.1)))`, with the float
arithmetic embedded as exact rational arithmetic. -/
def gravity_interval (level : ℕ) (mult : ℚ) : ℤ :=
  max 60 (truncQ ((1000 - 60 * (level : ℚ)) / max mult (1 / 10)))

/-- The session counters the locking procedure touches. -/
structure GState where
  board : Board
  score : ℕ
  lines : ℕ
  level : ℕ

/-- The all-empty starting board. -/
def initBoard : Board := List.replicate ROWS (List.replicate COLS none)

/-- The locking procedure of src/tetris.py lines 688-702 (the hard-drop
path, lines 628-641, runs the identical code): merge the piece, sweep,
and if any rows cleared add the award, add the cleared count to `lines`,
and bump `level` by one when `lines // 10` exceeds it. -/
def lockStep (s : GState) (p : Piece) : GState :=
  let b1 := merge s.board p
  let sw := sweep b1
  if sw.2 ≠ 0 then
    { board := sw.1
      score := s.score + SCORE_TABLE sw.2 * (s.level + 1)
      lines := s.lines + sw.2
      level := if s.level < (s.lines + sw.2) / LINES_PER_LEVEL then s.level + 1
               else s.level }
  else { s with board := sw.1 }

/-- States reachable from a fresh session by locking pieces.  Horizontal
moves, rotations and drops never touch `board`/`score`/`lines`/`level`,
so every reachable combination of those fields arises this way.  Locked
pieces always have at most 4 shape rows: the seven `SHAPES` have 2-4 rows
each and the rotation transforms keep the (square) grids the same size. -/
inductive Reach : GState → Prop
  | init : Reach ⟨initBoard, 0, 0, 0⟩
  | lock (s : GState) (p : Piece) : Reach s → p.shape.length ≤ 4 →
      Reach (lockStep s p)

/-- A board used to instantiate the sweep claim: 20 rows, of which exactly
rows 2 and 5 are full, the others carrying distinct markers. -/
def tagRow (k : Kind) : Row := some k :: List.replicate (COLS - 1) none

/-- The fully occupied row. -/
def fullRow : Row := List.replicate COLS (some .I)

/-- Concrete 20-row board whose full rows are exactly rows 2 and 5. -/
def cBoard : Board :=
  [emptyRow, tagRow .J, fullRow, tagRow .L, tagRow .T, fullRow] ++
    List.replicate 14 emptyRow

/-- The body of the collision scan, as a propositional condition. -/
theorem collide_body_eq (c0 c1 c2 : Prop) [Decidable c0] [Decidable c1]
    [Decidable c2] :
    ((if c0 then false else if c1 then true else if c2 then true else false)
      = true) ↔ (¬c0 ∧ (c1 ∨ c2)) := by
  split_ifs <;> simp_all

/-- C5: `collide` returns true exactly on the specified condition. -/
theorem collide_iff_specCollides (b : Board) (p : Piece) :
    collide b p = true ↔ SpecCollides b p := by
  unfold collide SpecCollides
  simp only [List.any_eq_true, List.mem_range, collide_body_eq]
  constructor
  · rintro ⟨sy, hsy, sx, hsx, h0, hcond⟩
    exact ⟨sy, sx, hsy, hsx, h0, by tauto⟩
  · rintro ⟨sy, sx, hsy, hsx, h0, hcond⟩
    exact ⟨sy, hsy, sx, hsx, h0, by tauto⟩

/-! ### C1: auto-shift timing -/

set_option maxRecDepth 40000 in
/-- C1 counterexample: driving a fresh controller with right held for 400
ticks of 1ms (DAS=170, ARR=30), the controller emits no step at t=170;
its first post-DAS step is at t=198, and the emitted sequence differs
from the claimed schedule "one step at t=0, then steps every 30ms
starting at t=170". -/
theorem shiftRepeat_claimed_timing_false :
    (runTicks 400 ShiftRepeat.start).getD 170 0 = 0 ∧
    (runTicks 400 ShiftRepeat.start).getD 198 0 = 1 ∧
    runTicks 400 ShiftRepeat.start ≠
      (List.range 400).map
        (fun i => if i = 0 ∨ (170 ≤ i ∧ (i - 170) % 30 = 0) then (1 : ℤ) else 0) := by
  refine ⟨?_, ?_, ?_⟩ <;> decide

set_option maxRecDepth 40000 in
/-- C1 (amended): with 1ms ticks, the fresh controller emits exactly one
immediate step at t=0, nothing through t=197 (the hold timer counts the
current tick's dt, so it reaches DAS=170 during the tick at t=169, and
the repeat timer then needs a full ARR=30 to accumulate), and then one
step every 30ms: at t=198, 228, 258, ..., 378. -/
theorem shiftRepeat_tick_timing :
    runTicks 400 ShiftRepeat.start =
      (List.range 400).map
        (fun i => if i = 0 ∨ (198 ≤ i ∧ (i - 198) % 30 = 0) then (1 : ℤ) else 0) := by
  decide

/-! ### C3: line-clear award -/

/-- C3 counterexample: in the src/main.py scoring, a single 4-line clear
awards exactly the same as four separate 1-line clears at the same level
(shown at level 0) - not "far more"; that award is linear in the number
of lines. -/
theorem mainClearAward_linear :
    mainClearAward 4 0 = 4 * mainClearAward 1 0 ∧
    ¬ 4 * mainClearAward 1 0 < mainClearAward 4 0 := by
  decide

/-- C3 (amended): in the src/tetris.py scoring the base award is
`SCORE_TABLE` = {1:40, 2:100, 3:300, 4:1200}, multiplied by (level+1);
this is super-linear: at every fixed level a single clear of n rows
(n = 2, 3, 4) awards strictly more than n separate 1-line clears, and a
4-line clear awards 1200 versus 160 for four singles. -/
theorem tetrisClearAward_superlinear :
    ∀ level : ℕ,
      tetrisClearAward 4 level = 1200 * (level + 1) ∧
      2 * tetrisClearAward 1 level < tetrisClearAward 2 level ∧
      3 * tetrisClearAward 1 level < tetrisClearAward 3 level ∧
      4 * tetrisClearAward 1 level < tetrisClearAward 4 level := by
  intro level
  have h1 : tetrisClearAward 1 level = 40 * (level + 1) := rfl
  have h2 : tetrisClearAward 2 level = 100 * (level + 1) := rfl
  have h3 : tetrisClearAward 3 level = 300 * (level + 1) := rfl
  have h4 : tetrisClearAward 4 level = 1200 * (level + 1) := rfl
  refine ⟨h4, ?_, ?_, ?_⟩ <;> rw [h1] <;> omega

/-! ### C7: rotation with kicks -/

/-- The kick loop returns the first trial that does not collide. -/
theorem tryRotateLoop_eq_find (b : Board) (t : Kind) (ns : List (List ℕ))
    (st : ℕ) (x y : ℤ) (ks : List (ℤ × ℤ)) :
    tryRotateLoop b t ns st x y ks =
      (ks.map fun d => (⟨t, ns, st, x + d.1, y + d.2⟩ : Piece)).find?
        (fun q => !(collide b q)) := by
  induction ks with
  | nil => rfl
  | cons d rest ih =>
    obtain ⟨dx, dy⟩ := d
    simp only [tryRotateLoop, List.map_cons, List.find?_cons]
    cases hcol : collide b ⟨t, ns, st, x + dx, y + dy⟩ <;> simp [hcol, ih]

/-- C7: `try_rotate` computes the target state as `(old ± 1) mod 4` with
the unsigned modulo (clockwise adds 1, counter-clockwise is congruent to
adding 3, so state 0 counter-clockwise yields 3), tries the kick offsets
of the `(oldState, newState)` entry in listed order, returning the first
trial piece (rotated shape, new state, shifted origin) that does not
collide, and returns the rejection `none` exactly when every candidate
collides (the input piece itself is never modified). -/
theorem try_rotate_spec (b : Board) (p : Piece) (cw : Bool) :
    try_rotate b p cw =
      (rotationTrials p cw).find? (fun q => !(collide b q)) ∧
    (∀ s : ℕ, newRotState s true = (s + 1) % 4 ∧
      newRotState s false = (s + 3) % 4) ∧
    (try_rotate b p cw = none ↔
      ∀ q ∈ rotationTrials p cw, collide b q = true) := by
  have h1 : try_rotate b p cw =
      (rotationTrials p cw).find? (fun q => !(collide b q)) := by
    unfold try_rotate rotationTrials
    exact tryRotateLoop_eq_find b p.t _ (newRotState p.state cw) p.x p.y _
  refine ⟨h1, ?_, ?_⟩
  · intro s
    constructor
    · show (((s : ℤ) + 1) % 4).toNat = (s + 1) % 4
      omega
    · show (((s : ℤ) + -1) % 4).toNat = (s + 3) % 4
      omega
  · rw [h1, List.find?_eq_none]
    constructor
    · intro h q hq
      have := h q hq
      simpa using this
    · intro h q hq
      simpa using h q hq

/-! ### C4: the randomizer's draw algorithm -/

/-- The source's avoidance loop agrees with the spec-worded redraw loop on
candidate indices below 7 (all candidates are produced modulo 7). -/
theorem avoidLoop_eq_specRedraw :
    ∀ (fuel s cand : ℕ), cand < 7 →
      avoidLoop fuel s cand = specRedraw fuel s cand := by
  intro fuel
  induction fuel with
  | zero => intro s cand _; rfl
  | succ n ih =>
    intro s cand hc
    have hmem : (cand ∈ badIndices) ↔ (PIECES.getD cand .I ∈ specAvoided) := by
      interval_cases cand <;> decide
    unfold avoidLoop specRedraw
    by_cases hin : cand ∈ badIndices
    · rw [if_pos hin, if_pos (hmem.mp hin)]
      exact ih _ _ (Nat.mod_lt _ (by norm_num))
    · rw [if_neg hin, if_neg (fun hh => hin (hmem.mpr hh))]

/-- C4: `next_piece` follows exactly the drawn-out algorithm of the spec
(LCG advance, bits 16-30, modulo 7, first-draw S/Z/O redraw loop, 50%
single repeat rejection, record and return), stated as equality with the
spec-worded `specDraw` for every generator state and fuel; moreover when
a previous draw exists the avoidance loop is not entered at all, so the
draw needs no fuel (at most one extra redraw, never a retry loop). -/
theorem next_piece_eq_specDraw :
    (∀ (fuel : ℕ) (g : NESRandom), next_piece fuel g = specDraw fuel g) ∧
    (∀ (fuel : ℕ) (g : NESRandom) (i : ℕ), g.prev_index = some i →
      next_piece fuel g = next_piece 0 g) := by
  constructor
  · intro fuel g
    obtain ⟨st, pi, av⟩ := g
    cases pi with
    | none =>
      cases av with
      | false => rfl
      | true =>
        have hlt : (rand_choice7 st).2 < 7 := Nat.mod_lt _ (by norm_num)
        have he := avoidLoop_eq_specRedraw fuel (rand_choice7 st).1 _ hlt
        unfold next_piece specDraw
        dsimp only
        rw [he]
        rfl
    | some i => rfl
  · intro fuel g i hp
    obtain ⟨st, pi, av⟩ := g
    cases hp
    rfl

/-- C4 witness: the refinement applied at a concrete generator, and the
fuel-independence applied at a generator with a previous draw recorded. -/
theorem next_piece_eq_specDraw_witness :
    next_piece 3 ⟨12345, none, true⟩ = specDraw 3 ⟨12345, none, true⟩ ∧
    next_piece 7 ⟨99, some 2, true⟩ = next_piece 0 ⟨99, some 2, true⟩ :=
  ⟨next_piece_eq_specDraw.1 3 ⟨12345, none, true⟩,
   next_piece_eq_specDraw.2 7 ⟨99, some 2, true⟩ 2 rfl⟩

/-! ### C8: gravity interval -/

/-- Truncation agrees with the floor on non-negative rationals. -/
theorem truncQ_eq_floor (q : ℚ) (h : 0 ≤ q) : truncQ q = ⌊q⌋ := by
  unfold truncQ
  rw [Rat.floor_def]
  exact Int.tdiv_eq_ediv (Rat.num_nonneg.mpr h) (by positivity)

/-- Truncation of a non-positive rational is non-positive. -/
theorem truncQ_nonpos (q : ℚ) (h : q ≤ 0) : truncQ q ≤ 0 := by
  unfold truncQ
  have hnum : q.num ≤ 0 := Rat.num_nonpos.mpr h
  have := Int.tdiv_nonneg (a := -q.num) (b := (q.den : ℤ)) (by omega)
    (by positivity)
  rw [Int.neg_tdiv] at this
  omega

/-- C8 counterexample: at level 0 with multiplier 3/10 the code computes
`int(1000 / 0.3)` = 3333, while the claimed formula (with exact division
and no truncation) gives 10000/3; the two differ. -/
theorem gravity_interval_not_exact_quotient :
    gravity_interval 0 (3 / 10) = 3333 ∧
    ((gravity_interval 0 (3 / 10) : ℚ) ≠
      max 60 ((1000 - 60 * ((0 : ℕ) : ℚ)) / max (3 / 10) (1 / 10))) := by
  have hmax : max (3 / 10 : ℚ) (1 / 10) = 3 / 10 := by norm_num
  have hq : (1000 - 60 * ((0 : ℕ) : ℚ)) / max (3 / 10) (1 / 10) = 10000 / 3 := by
    rw [hmax]; norm_num
  have hfloor : truncQ ((1000 - 60 * ((0 : ℕ) : ℚ)) / max (3 / 10) (1 / 10)) = 3333 := by
    rw [hq, truncQ_eq_floor _ (by norm_num)]
    rw [show (10000 / 3 : ℚ) = ((10000 : ℤ) : ℚ) / ((3 : ℕ) : ℚ) by norm_num]
    rw [Rat.floor_intCast_div_natCast]
    decide
  have hval : gravity_interval 0 (3 / 10) = 3333 := by
    unfold gravity_interval
    rw [hfloor]
    decide
  refine ⟨hval, ?_⟩
  rw [hval, hq]
  norm_num

/-- C8 (amended): the gravity interval equals
`max(60, int((1000 - 60*level) / max(mult, 0.1)))` by definition (the
code truncates the quotient to an integer before clamping); it is
non-increasing in the level at any fixed multiplier, and never drops
below 60ms for any level or multiplier. -/
theorem gravity_interval_monotone :
    ∀ (mult : ℚ) (l1 l2 : ℕ), l1 ≤ l2 →
      gravity_interval l2 mult ≤ gravity_interval l1 mult ∧
      60 ≤ gravity_interval l2 mult := by
  intro mult l1 l2 h
  refine ⟨?_, le_max_left _ _⟩
  unfold gravity_interval
  have hd : (0 : ℚ) < max mult (1 / 10) :=
    lt_of_lt_of_le (by norm_num) (le_max_right _ _)
  have hnum : (1000 - 60 * (l2 : ℚ)) ≤ (1000 - 60 * (l1 : ℚ)) := by
    have : (l1 : ℚ) ≤ (l2 : ℚ) := by exact_mod_cast h
    linarith
  have hq : (1000 - 60 * (l2 : ℚ)) / max mult (1 / 10) ≤
      (1000 - 60 * (l1 : ℚ)) / max mult (1 / 10) := by
    gcongr
  rcases le_or_lt 0 ((1000 - 60 * (l2 : ℚ)) / max mult (1 / 10)) with h2 | h2
  · rw [truncQ_eq_floor _ h2, truncQ_eq_floor _ (le_trans h2 hq)]
    exact max_le_max (le_refl 60) (Int.floor_mono hq)
  · have : truncQ ((1000 - 60 * (l2 : ℚ)) / max mult (1 / 10)) ≤ 0 :=
      truncQ_nonpos _ (le_of_lt h2)
    have hleft : max (60 : ℤ)
        (truncQ ((1000 - 60 * (l2 : ℚ)) / max mult (1 / 10))) = 60 :=
      max_eq_left (by omega)
    rw [hleft]
    exact le_max_left _ _

/-- C8 witness: monotonicity applied at levels 3 ≤ 17 with multiplier 1. -/
theorem gravity_interval_monotone_witness :
    gravity_interval 17 1 ≤ gravity_interval 3 1 ∧ 60 ≤ gravity_interval 17 1 :=
  gravity_interval_monotone 1 3 17 (by norm_num)

/-! ### C6: sweep -/

/-- The inserted empty row is not full. -/
theorem isFull_emptyRow : isFull emptyRow = false := by decide

/-- The out-of-range default row is not full. -/
theorem isFull_nil : isFull ([] : Row) = false := by decide

/-- Rows at or above the erased index shift down by one. -/
theorem getD_eraseIdx_ge (l : Board) (j m : ℕ) (h : j ≤ m) :
    (l.eraseIdx j).getD m [] = l.getD (m + 1) [] := by
  rw [List.getD_eq_getElem?_getD, List.getD_eq_getElem?_getD,
    List.getElem?_eraseIdx]
  rw [if_neg (by omega)]

/-- Erasing a full row at a valid index lowers the full count by one. -/
theorem countFull_eraseIdx (b : Board) (i : ℕ) (hi : i < b.length)
    (hf : isFull (b.getD i []) = true) :
    countFull (b.eraseIdx i) + 1 = countFull b := by
  unfold countFull
  rw [List.eraseIdx_eq_take_drop_succ, List.countP_append]
  conv_rhs => rw [← List.take_append_drop i b]
  rw [List.countP_append, List.drop_eq_getElem_cons hi, List.countP_cons]
  rw [List.getD_eq_getElem b [] hi] at hf
  rw [if_pos hf]
  ring

/-- Erasing a full row does not change the surviving (non-full) rows. -/
theorem filter_eraseIdx_full (b : Board) (i : ℕ) (hi : i < b.length)
    (hf : isFull (b.getD i []) = true) :
    (b.eraseIdx i).filter (fun r => !(isFull r)) =
      b.filter (fun r => !(isFull r)) := by
  rw [List.eraseIdx_eq_take_drop_succ, List.filter_append]
  conv_rhs => rw [← List.take_append_drop i b]
  rw [List.filter_append, List.drop_eq_getElem_cons hi, List.filter_cons]
  rw [List.getD_eq_getElem b [] hi] at hf
  rw [if_neg (by simp [hf])]

/-- A board whose every row at or below a cutoff is non-full and whose
fuel covers the remaining work sweeps to: the full rows replaced by
leading empty rows, the others kept in order, plus the running count. -/
theorem sweepLoop_spec :
    ∀ (fuel : ℕ) (b : Board) (ypos cnt : ℕ),
      ypos + countFull b ≤ fuel →
      (∀ i, ypos ≤ i → isFull (b.getD i []) = false) →
      sweepLoop fuel b ypos cnt =
        (List.replicate (countFull b) emptyRow ++
          b.filter (fun r => !(isFull r)), cnt + countFull b) := by
  intro fuel
  induction fuel with
  | zero =>
    intro b ypos cnt hfuel hno
    have hy : ypos = 0 := by omega
    have hc : countFull b = 0 := by omega
    subst hy
    have hfil : b.filter (fun r => !(isFull r)) = b := by
      rw [List.filter_eq_self]
      intro a ha
      have := (List.countP_eq_zero.mp hc) a ha
      simp only [Bool.not_eq_true'] at this ⊢
      simp [this]
    simp [sweepLoop, hc, hfil]
  | succ n ih =>
    intro b ypos cnt hfuel hno
    by_cases hy : ypos = 0
    · subst hy
      have hc : countFull b = 0 := by
        rw [countFull, List.countP_eq_zero]
        intro a ha
        obtain ⟨i, hi, rfl⟩ := List.mem_iff_getElem.mp ha
        have := hno i (Nat.zero_le i)
        rw [List.getD_eq_getElem b [] hi] at this
        simp [this]
      have hfil : b.filter (fun r => !(isFull r)) = b := by
        rw [List.filter_eq_self]
        intro a ha
        have := (List.countP_eq_zero.mp hc) a ha
        simp only [Bool.not_eq_true'] at this ⊢
        simp [this]
      simp [sweepLoop, hc, hfil]
    · rw [sweepLoop, if_neg hy]
      by_cases hf : isFull (b.getD (ypos - 1) []) = true
      · rw [if_pos hf]
        have hlen : ypos - 1 < b.length := by
          by_contra hge
          rw [List.getD_eq_default _ _ (by omega)] at hf
          rw [isFull_nil] at hf
          exact Bool.false_ne_true hf
        have hcount : countFull (emptyRow :: b.eraseIdx (ypos - 1)) + 1 =
            countFull b := by
          have h1 := countFull_eraseIdx b (ypos - 1) hlen hf
          unfold countFull at h1 ⊢
          rw [List.countP_cons, if_neg (by simp [isFull_emptyRow])]
          omega
        have hpre : ∀ i, ypos ≤ i →
            isFull ((emptyRow :: b.eraseIdx (ypos - 1)).getD i []) = false := by
          intro i hi
          have hi1 : 1 ≤ i := by omega
          rw [show i = (i - 1) + 1 by omega, List.getD_cons_succ]
          rw [getD_eraseIdx_ge b (ypos - 1) (i - 1) (by omega)]
          exact hno (i - 1 + 1) (by omega)
        have hrec := ih (emptyRow :: b.eraseIdx (ypos - 1)) ypos (cnt + 1)
          (by omega) hpre
        rw [hrec]
        have hfil : (emptyRow :: b.eraseIdx (ypos - 1)).filter
            (fun r => !(isFull r)) =
            emptyRow :: b.filter (fun r => !(isFull r)) := by
          rw [List.filter_cons, if_pos (by simp [isFull_emptyRow])]
          rw [filter_eraseIdx_full b (ypos - 1) hlen hf]
        rw [hfil]
        refine Prod.ext ?_ ?_
        · show List.replicate (countFull (emptyRow :: b.eraseIdx (ypos - 1)))
              emptyRow ++ (emptyRow :: b.filter (fun r => !(isFull r))) =
            List.replicate (countFull b) emptyRow ++
              b.filter (fun r => !(isFull r))
          rw [← hcount, List.replicate_succ']
          simp
        · show cnt + 1 + countFull (emptyRow :: b.eraseIdx (ypos - 1)) =
            cnt + countFull b
          omega
      · rw [if_neg hf]
        have hpre : ∀ i, ypos - 1 ≤ i → isFull (b.getD i []) = false := by
          intro i hi
          rcases Nat.eq_or_lt_of_le hi with heq | hlt
          · rw [← heq]
            exact Bool.not_eq_true _ ▸ (Bool.eq_false_iff.mpr hf)
          · exact hno i (by omega)
        exact ih b (ypos - 1) cnt (by omega) hpre

/-- C6: for every 20-row board, `sweep` removes exactly the full rows
(those in which every column is non-empty), inserts one empty row at the
top per removed row, preserves the relative order of the remaining rows,
and returns the number of rows removed. -/
theorem sweep_spec (b : Board) (h : b.length = ROWS) :
    sweep b = (List.replicate (countFull b) emptyRow ++
      b.filter (fun r => !(isFull r)), countFull b) := by
  unfold sweep
  have hpre : ∀ i, ROWS ≤ i → isFull (b.getD i []) = false := by
    intro i hi
    rw [List.getD_eq_default _ _ (by omega)]
    exact isFull_nil
  have := sweepLoop_spec (ROWS + countFull b) b ROWS 0 (le_refl _) hpre
  simpa using this

/-- C6 witness: the concrete board whose full rows are exactly rows 2 and
5: `sweep` returns 2, removes those two rows, inserts two empty rows at
the top, and keeps all other rows in order. -/
theorem sweep_spec_witness :
    cBoard.length = ROWS ∧
    sweep cBoard = (List.replicate (countFull cBoard) emptyRow ++
      cBoard.filter (fun r => !(isFull r)), countFull cBoard) ∧
    countFull cBoard = 2 ∧
    (sweep cBoard).1 = [emptyRow, emptyRow, emptyRow, tagRow .J, tagRow .L,
      tagRow .T] ++ List.replicate 14 emptyRow ∧
    (sweep cBoard).2 = 2 :=
  ⟨by decide, sweep_spec cBoard (by decide), by decide, by decide, by decide⟩

/-! ### C9: ghost row -/

/-- A shape with `hasBlock` yields a witnessing occupied cell. -/
theorem hasBlock_exists (shape : List (List ℕ)) (h : hasBlock shape = true) :
    ∃ sy sx, sy < shape.length ∧ sx < (shape.getD sy []).length ∧
      shapeCell shape sy sx ≠ 0 := by
  simp only [hasBlock, List.any_eq_true, List.mem_range,
    decide_eq_true_eq] at h
  obtain ⟨sy, hsy, sx, hsx, hocc⟩ := h
  exact ⟨sy, sx, hsy, hsx, hocc⟩

/-- If the row below does not collide, the piece is still well above the
floor: some occupied cell is on-board, so `y ≤ 18`. -/
theorem ghost_descend_bound (b : Board) (p : Piece)
    (h : hasBlock p.shape = true) (y : ℤ)
    (hc : collide b ⟨p.t, p.shape, p.state, p.x, y + 1⟩ = false) :
    y ≤ 18 := by
  obtain ⟨sy, sx, hsy, hsx, hocc⟩ := hasBlock_exists p.shape h
  by_contra hy
  have hspec : SpecCollides b ⟨p.t, p.shape, p.state, p.x, y + 1⟩ := by
    refine ⟨sy, sx, hsy, hsx, hocc, Or.inr (Or.inr (Or.inl ?_))⟩
    show (ROWS : ℤ) ≤ y + 1 + sy
    have : (19 : ℤ) ≤ y := by omega
    have hsy0 : (0 : ℤ) ≤ (sy : ℤ) := Int.ofNat_nonneg sy
    show (20 : ℤ) ≤ y + 1 + sy
    omega
  rw [← collide_iff_specCollides, hc] at hspec
  exact Bool.false_ne_true hspec

/-- Characterization of the descent loop from any starting row. -/
theorem ghostAux_spec (b : Board) (p : Piece) (h : hasBlock p.shape = true) :
    ∀ (n : ℕ) (y : ℤ), (20 - y).toNat ≤ n →
      y ≤ ghostAux b p h y ∧
      (∀ k : ℤ, y < k → k ≤ ghostAux b p h y →
        collide b ⟨p.t, p.shape, p.state, p.x, k⟩ = false) ∧
      collide b ⟨p.t, p.shape, p.state, p.x, ghostAux b p h y + 1⟩ = true := by
  intro n
  induction n with
  | zero =>
    intro y hn
    have hcol : collide b ⟨p.t, p.shape, p.state, p.x, y + 1⟩ = true := by
      cases hc : collide b ⟨p.t, p.shape, p.state, p.x, y + 1⟩ with
      | false => exact absurd (ghost_descend_bound b p h y hc) (by omega)
      | true => rfl
    rw [ghostAux, dif_pos hcol]
    exact ⟨le_refl y, fun k hk1 hk2 => absurd (lt_of_lt_of_le hk1 hk2)
      (lt_irrefl y), hcol⟩
  | succ n ih =>
    intro y hn
    rw [ghostAux]
    by_cases hc : collide b ⟨p.t, p.shape, p.state, p.x, y + 1⟩ = true
    · rw [dif_pos hc]
      exact ⟨le_refl y, fun k hk1 hk2 => absurd (lt_of_lt_of_le hk1 hk2)
        (lt_irrefl y), hc⟩
    · rw [dif_neg hc]
      have hb : y ≤ 18 :=
        ghost_descend_bound b p h y (Bool.not_eq_true _ ▸ hc)
      obtain ⟨h1, h2, h3⟩ := ih (y + 1) (by omega)
      refine ⟨by omega, ?_, h3⟩
      intro k hk1 hk2
      rcases eq_or_lt_of_le (show y + 1 ≤ k by omega) with heq | hlt
      · rw [← heq]
        exact Bool.not_eq_true _ ▸ hc
      · exact h2 k hlt hk2

/-- C9: for every board and every piece whose shape has at least one
occupied cell, `ghost_y` is a well-defined (terminating) total function
and returns the last non-colliding row reached by moving down one row at
a time from the piece's current row: the result is at or below the
current row, every row passed on the way down (strictly below the start,
up to the result) is collision-free, and the row below the result
collides.  The embedding is pure, so board and piece are untouched. -/
theorem ghost_y_spec (b : Board) (p : Piece) (h : hasBlock p.shape = true) :
    p.y ≤ ghost_y b p h ∧
    (∀ k : ℤ, p.y < k → k ≤ ghost_y b p h →
      collide b ⟨p.t, p.shape, p.state, p.x, k⟩ = false) ∧
    collide b ⟨p.t, p.shape, p.state, p.x, ghost_y b p h + 1⟩ = true := by
  unfold ghost_y
  exact ghostAux_spec b p h ((20 - p.y).toNat) p.y (le_refl _)

/-- C9 witness: the O piece on the empty board, spawned at the top
center. -/
theorem ghost_y_spec_witness :
    hasBlock (SHAPES Kind.O) = true ∧
    ((⟨Kind.O, SHAPES Kind.O, 0, 4, 0⟩ : Piece).y ≤
        ghost_y initBoard ⟨Kind.O, SHAPES Kind.O, 0, 4, 0⟩ (by decide) ∧
      (∀ k : ℤ, (⟨Kind.O, SHAPES Kind.O, 0, 4, 0⟩ : Piece).y < k →
        k ≤ ghost_y initBoard ⟨Kind.O, SHAPES Kind.O, 0, 4, 0⟩ (by decide) →
        collide initBoard ⟨Kind.O, SHAPES Kind.O, 0, 4, k⟩ = false) ∧
      collide initBoard ⟨Kind.O, SHAPES Kind.O, 0, 4,
        ghost_y initBoard ⟨Kind.O, SHAPES Kind.O, 0, 4, 0⟩ (by decide) + 1⟩ =
        true) :=
  ⟨by decide, ghost_y_spec initBoard ⟨Kind.O, SHAPES Kind.O, 0, 4, 0⟩ (by decide)⟩

/-! ### C10: merge -/

/-- `setCell` preserves the number of rows. -/
theorem length_setCell (b : Board) (r c : ℕ) (t : Kind) :
    (setCell b r c t).length = b.length := by
  unfold setCell
  exact List.length_set b r _

/-- `setCell` preserves every row's length. -/
theorem getD_length_setCell (b : Board) (r c : ℕ) (t : Kind) (i : ℕ) :
    ((setCell b r c t).getD i []).length = (b.getD i []).length := by
  unfold setCell
  by_cases hri : r = i
  · subst hri
    by_cases hr : r < b.length
    · have hrow : (b.set r ((b.getD r []).set c (some t))).getD r [] =
          (b.getD r []).set c (some t) := by
        rw [List.getD_eq_getElem?_getD (b.set r _) r [],
          List.getElem?_set_self hr]
        rfl
      rw [hrow, List.length_set]
    · rw [List.set_eq_of_length_le (by omega)]
  · have hrow : (b.set r ((b.getD r []).set c (some t))).getD i [] =
        b.getD i [] := by
      rw [List.getD_eq_getElem?_getD (b.set r _) i [],
        List.getElem?_set_ne hri, ← List.getD_eq_getElem?_getD]
    rw [hrow]

/-- Reading one cell after `setCell`: the targeted in-range cell holds the
new tag, all others are unchanged. -/
theorem cell_setCell (b : Board) (r' c' : ℕ) (t : Kind) (r c : ℕ)
    (hr : r < b.length) (hc : c < (b.getD r []).length) :
    ((setCell b r' c' t).getD r []).getD c none =
      if r' = r ∧ c' = c then some t
      else (b.getD r []).getD c none := by
  unfold setCell
  by_cases hrr : r' = r
  · subst hrr
    have hrow : (b.set r' ((b.getD r' []).set c' (some t))).getD r' [] =
        (b.getD r' []).set c' (some t) := by
      rw [List.getD_eq_getElem?_getD (b.set r' _) r' [],
        List.getElem?_set_self hr]
      rfl
    rw [hrow]
    by_cases hcc : c' = c
    · subst hcc
      rw [if_pos ⟨rfl, rfl⟩]
      rw [List.getD_eq_getElem?_getD ((b.getD r' []).set c' (some t)) c' none,
        List.getElem?_set_self hc]
      rfl
    · rw [if_neg (by tauto)]
      rw [List.getD_eq_getElem?_getD ((b.getD r' []).set c' (some t)) c none,
        List.getElem?_set_ne hcc, ← List.getD_eq_getElem?_getD]
  · rw [if_neg (by tauto)]
    have hrow : (b.set r' ((b.getD r' []).set c' (some t))).getD r [] =
        b.getD r [] := by
      rw [List.getD_eq_getElem?_getD (b.set r' _) r [],
        List.getElem?_set_ne hrr, ← List.getD_eq_getElem?_getD]
    rw [hrow]

/-- `mergeRowLoop` preserves the number of rows. -/
theorem length_mergeRowLoop (p : Piece) (sy : ℕ) (L : List ℕ) :
    ∀ b : Board, (mergeRowLoop p sy L b).length = b.length := by
  induction L with
  | nil => intro b; rfl
  | cons sx rest ih =>
    intro b
    show (mergeRowLoop p sy rest _).length = b.length
    rw [ih]
    split_ifs
    · exact length_setCell b _ _ _
    · rfl

/-- `mergeRowLoop` preserves every row's length. -/
theorem getD_length_mergeRowLoop (p : Piece) (sy : ℕ) (L : List ℕ) :
    ∀ (b : Board) (i : ℕ),
      ((mergeRowLoop p sy L b).getD i []).length = (b.getD i []).length := by
  induction L with
  | nil => intro b i; rfl
  | cons sx rest ih =>
    intro b i
    show ((mergeRowLoop p sy rest _).getD i []).length = _
    rw [ih]
    split_ifs
    · exact getD_length_setCell b _ _ _ i
    · rfl

/-- Reading one cell after a whole shape row is written. -/
theorem cell_mergeRowLoop (p : Piece) (sy : ℕ) (L : List ℕ) :
    ∀ (b : Board) (r c : ℕ), r < b.length → c < (b.getD r []).length →
      ((mergeRowLoop p sy L b).getD r []).getD c none =
        if ∃ sx ∈ L, shapeCell p.shape sy sx ≠ 0 ∧ 0 ≤ p.y + sy ∧
            (p.y + sy).toNat = r ∧ (p.x + sx).toNat = c
        then some p.t else (b.getD r []).getD c none := by
  induction L with
  | nil =>
    intro b r c _ _
    simp [mergeRowLoop]
  | cons sx0 rest ih =>
    intro b r c hr hc
    show ((mergeRowLoop p sy rest _).getD r []).getD c none = _
    by_cases hcond : shapeCell p.shape sy sx0 ≠ 0 ∧ 0 ≤ p.y + sy
    · rw [if_pos hcond]
      have hr' : r < (setCell b (p.y + sy).toNat (p.x + sx0).toNat p.t).length := by
        rw [length_setCell]; exact hr
      have hc' : c <
          ((setCell b (p.y + sy).toNat (p.x + sx0).toNat p.t).getD r []).length := by
        rw [getD_length_setCell]; exact hc
      rw [ih _ r c hr' hc']
      rw [cell_setCell b _ _ p.t r c hr hc]
      by_cases hrest : ∃ sx ∈ rest, shapeCell p.shape sy sx ≠ 0 ∧
          0 ≤ p.y + sy ∧ (p.y + sy).toNat = r ∧ (p.x + sx).toNat = c
      · rw [if_pos hrest]
        obtain ⟨sx, hm, hx⟩ := hrest
        rw [if_pos ⟨sx, List.mem_cons_of_mem _ hm, hx⟩]
      · rw [if_neg hrest]
        by_cases hhead : (p.y + sy).toNat = r ∧ (p.x + sx0).toNat = c
        · rw [if_pos hhead,
            if_pos ⟨sx0, List.mem_cons_self _ _, hcond.1, hcond.2,
              hhead.1, hhead.2⟩]
        · rw [if_neg hhead, if_neg ?_]
          rintro ⟨sx, hmem, hocc2, hge2, hr2, hc2⟩
          rcases List.mem_cons.mp hmem with rfl | hmem2
          · exact hhead ⟨hr2, hc2⟩
          · exact hrest ⟨sx, hmem2, hocc2, hge2, hr2, hc2⟩
    · rw [if_neg hcond]
      rw [ih b r c hr hc]
      refine if_congr ?_ rfl rfl
      constructor
      · rintro ⟨sx, hm, hx⟩
        exact ⟨sx, List.mem_cons_of_mem _ hm, hx⟩
      · rintro ⟨sx, hmem, hocc2, hge2, hr2, hc2⟩
        rcases List.mem_cons.mp hmem with rfl | hm
        · exact absurd ⟨hocc2, hge2⟩ hcond
        · exact ⟨sx, hm, hocc2, hge2, hr2, hc2⟩

/-- `mergeLoop` preserves the number of rows. -/
theorem length_mergeLoop (p : Piece) (L : List ℕ) :
    ∀ b : Board, (mergeLoop p L b).length = b.length := by
  induction L with
  | nil => intro b; rfl
  | cons sy rest ih =>
    intro b
    show (mergeLoop p rest _).length = b.length
    rw [ih, length_mergeRowLoop]

/-- `mergeLoop` preserves every row's length. -/
theorem getD_length_mergeLoop (p : Piece) (L : List ℕ) :
    ∀ (b : Board) (i : ℕ),
      ((mergeLoop p L b).getD i []).length = (b.getD i []).length := by
  induction L with
  | nil => intro b i; rfl
  | cons sy rest ih =>
    intro b i
    show ((mergeLoop p rest _).getD i []).length = _
    rw [ih, getD_length_mergeRowLoop]

/-- Reading one cell after all shape rows are written. -/
theorem cell_mergeLoop (p : Piece) (L : List ℕ) :
    ∀ (b : Board) (r c : ℕ), r < b.length → c < (b.getD r []).length →
      ((mergeLoop p L b).getD r []).getD c none =
        if ∃ sy ∈ L, ∃ sx ∈ List.range (p.shape.getD sy []).length,
            shapeCell p.shape sy sx ≠ 0 ∧ 0 ≤ p.y + sy ∧
            (p.y + sy).toNat = r ∧ (p.x + sx).toNat = c
        then some p.t else (b.getD r []).getD c none := by
  induction L with
  | nil =>
    intro b r c _ _
    simp [mergeLoop]
  | cons sy0 rest ih =>
    intro b r c hr hc
    show ((mergeLoop p rest _).getD r []).getD c none = _
    have hr' : r < (mergeRowLoop p sy0
        (List.range (p.shape.getD sy0 []).length) b).length := by
      rw [length_mergeRowLoop]; exact hr
    have hc' : c < ((mergeRowLoop p sy0
        (List.range (p.shape.getD sy0 []).length) b).getD r []).length := by
      rw [getD_length_mergeRowLoop]; exact hc
    rw [ih _ r c hr' hc']
    rw [cell_mergeRowLoop p sy0 _ b r c hr hc]
    by_cases hrest : ∃ sy ∈ rest, ∃ sx ∈ List.range (p.shape.getD sy []).length,
        shapeCell p.shape sy sx ≠ 0 ∧ 0 ≤ p.y + sy ∧
        (p.y + sy).toNat = r ∧ (p.x + sx).toNat = c
    · rw [if_pos hrest]
      obtain ⟨sy, hm, hx⟩ := hrest
      rw [if_pos ⟨sy, List.mem_cons_of_mem _ hm, hx⟩]
    · rw [if_neg hrest]
      by_cases hhead : ∃ sx ∈ List.range (p.shape.getD sy0 []).length,
          shapeCell p.shape sy0 sx ≠ 0 ∧ 0 ≤ p.y + sy0 ∧
          (p.y + sy0).toNat = r ∧ (p.x + sx).toNat = c
      · rw [if_pos hhead, if_pos ⟨sy0, List.mem_cons_self _ _, hhead⟩]
      · rw [if_neg hhead, if_neg ?_]
        rintro ⟨sy, hmem, hx⟩
        rcases List.mem_cons.mp hmem with rfl | hm
        · exact hhead hx
        · exact hrest ⟨sy, hm, hx⟩

/-- C10: if the piece does not collide with the (20x10) board, `merge`
writes the piece's type tag exactly into the board cells covered by
occupied shape cells with non-negative row - all of which are within
bounds - and leaves every other cell and the board's dimensions
unchanged. -/
theorem merge_spec (b : Board) (p : Piece) (hb : b.length = ROWS)
    (hrows : ∀ i, i < ROWS → (b.getD i []).length = COLS)
    (hnc : collide b p = false) :
    (merge b p).length = ROWS ∧
    (∀ i, i < ROWS → ((merge b p).getD i []).length = COLS) ∧
    (∀ sy sx, sy < p.shape.length → sx < (p.shape.getD sy []).length →
      shapeCell p.shape sy sx ≠ 0 → 0 ≤ p.y + sy →
      p.y + sy < ROWS ∧ 0 ≤ p.x + sx ∧ p.x + sx < COLS ∧
      boardCell (merge b p) (p.y + sy) (p.x + sx) = some p.t) ∧
    (∀ r c : ℕ, r < ROWS → c < COLS →
      (¬ ∃ sy sx, sy < p.shape.length ∧ sx < (p.shape.getD sy []).length ∧
        shapeCell p.shape sy sx ≠ 0 ∧ (r : ℤ) = p.y + sy ∧
        (c : ℤ) = p.x + sx) →
      boardCell (merge b p) r c = boardCell b r c) := by
  have hnspec : ¬ SpecCollides b p := by
    rw [← collide_iff_specCollides, hnc]
    exact Bool.false_ne_true
  have hcells : ∀ sy sx, sy < p.shape.length →
      sx < (p.shape.getD sy []).length → shapeCell p.shape sy sx ≠ 0 →
      0 ≤ p.x + sx ∧ p.x + sx < COLS ∧ p.y + sy < ROWS := by
    intro sy sx hsy hsx hocc
    by_contra hcon
    exact hnspec ⟨sy, sx, hsy, hsx, hocc, by
      push_neg at hcon
      by_cases h1 : p.x + sx < 0
      · exact Or.inl h1
      · by_cases h2 : (COLS : ℤ) ≤ p.x + sx
        · exact Or.inr (Or.inl h2)
        · exact Or.inr (Or.inr (Or.inl (hcon (by omega) (by omega))))⟩
  refine ⟨?_, ?_, ?_, ?_⟩
  · unfold merge
    rw [length_mergeLoop, hb]
  · intro i hi
    unfold merge
    rw [getD_length_mergeLoop]
    exact hrows i hi
  · intro sy sx hsy hsx hocc hge
    obtain ⟨hx0, hxC, hyR⟩ := hcells sy sx hsy hsx hocc
    refine ⟨hyR, hx0, hxC, ?_⟩
    show ((merge b p).getD (p.y + (sy : ℤ)).toNat []).getD
      (p.x + (sx : ℤ)).toNat none = some p.t
    unfold merge
    have hr : (p.y + (sy : ℤ)).toNat < b.length := by
      rw [hb]; unfold ROWS at hyR ⊢; omega
    have hc : (p.x + (sx : ℤ)).toNat < (b.getD (p.y + (sy : ℤ)).toNat []).length := by
      rw [hrows _ (by rw [← hb]; exact hr)]
      unfold COLS at hxC ⊢; omega
    rw [cell_mergeLoop p _ b _ _ hr hc]
    rw [if_pos ⟨sy, List.mem_range.mpr hsy, sx, List.mem_range.mpr hsx,
      hocc, hge, rfl, rfl⟩]
  · intro r c hrR hcC hncov
    show ((merge b p).getD ((r : ℤ)).toNat []).getD ((c : ℤ)).toNat none =
      (b.getD ((r : ℤ)).toNat []).getD ((c : ℤ)).toNat none
    unfold merge
    have hr : ((r : ℤ)).toNat < b.length := by rw [hb]; simpa using hrR
    have hc : ((c : ℤ)).toNat < (b.getD ((r : ℤ)).toNat []).length := by
      rw [hrows _ (by rw [← hb]; exact hr)]; simpa using hcC
    rw [cell_mergeLoop p _ b _ _ hr hc]
    rw [if_neg ?_]
    rintro ⟨sy, hmy, sx, hmx, hocc, hge, hr2, hc2⟩
    have hsy := List.mem_range.mp hmy
    have hsx := List.mem_range.mp hmx
    obtain ⟨hx0, _, _⟩ := hcells sy sx hsy hsx hocc
    refine hncov ⟨sy, sx, hsy, hsx, hocc, ?_, ?_⟩
    · have : ((r : ℤ)).toNat = r := Int.toNat_ofNat r
      omega
    · have : ((c : ℤ)).toNat = c := Int.toNat_ofNat c
      omega

/-- C10 witness: merging the O piece resting on the floor of the empty
board writes its four cells and changes nothing else. -/
theorem merge_spec_witness :
    initBoard.length = ROWS ∧
    (∀ i, i < ROWS → (initBoard.getD i []).length = COLS) ∧
    collide initBoard ⟨Kind.O, SHAPES Kind.O, 0, 4, 18⟩ = false ∧
    boardCell (merge initBoard ⟨Kind.O, SHAPES Kind.O, 0, 4, 18⟩) 18 4 =
      some Kind.O ∧
    boardCell (merge initBoard ⟨Kind.O, SHAPES Kind.O, 0, 4, 18⟩) 0 0 =
      boardCell initBoard 0 0 := by
  have h := merge_spec initBoard ⟨Kind.O, SHAPES Kind.O, 0, 4, 18⟩
    (by decide) (by decide) (by decide)
  refine ⟨by decide, by decide, by decide, ?_, ?_⟩
  · have := (h.2.2.1 0 0 (by decide) (by decide) (by decide) (by decide)).2.2.2
    simpa using this
  · refine h.2.2.2 0 0 (by decide) (by decide) ?_
    rintro ⟨sy, sx, hsy, hsx, hocc, hr2, hc2⟩
    dsimp only at hr2 hc2
    omega

/-! ### C2: level always equals lines / 10 -/

/-- Overwriting one row changes the full count by at most one. -/
theorem countP_set_le (q : Row → Bool) (b : Board) (i : ℕ) (v : Row) :
    (b.set i v).countP q ≤ b.countP q + 1 := by
  by_cases hi : i < b.length
  · rw [List.set_eq_take_append_cons_drop, if_pos hi]
    rw [List.countP_append, List.countP_cons]
    conv_rhs => rw [← List.take_append_drop i b]
    rw [List.countP_append, List.drop_eq_getElem_cons hi, List.countP_cons]
    split_ifs <;> omega
  · rw [List.set_eq_of_length_le (by omega)]
    omega

/-- Writing one shape row touches at most the single board row it maps
to: the result is the input board, or the input with that row replaced. -/
theorem mergeRowLoop_cases (p : Piece) (sy : ℕ) (L : List ℕ) :
    ∀ b : Board, mergeRowLoop p sy L b = b ∨
      ∃ v, mergeRowLoop p sy L b = b.set (p.y + sy).toNat v := by
  induction L with
  | nil => intro b; exact Or.inl rfl
  | cons sx rest ih =>
    intro b
    simp only [mergeRowLoop]
    by_cases hcond : shapeCell p.shape sy sx ≠ 0 ∧ 0 ≤ p.y + sy
    · rw [if_pos hcond]
      rcases ih (setCell b (p.y + sy).toNat (p.x + sx).toNat p.t) with h | ⟨v, hv⟩
      · exact Or.inr ⟨(b.getD (p.y + sy).toNat []).set (p.x + sx).toNat
          (some p.t), h⟩
      · unfold setCell at hv
        rw [List.set_set] at hv
        exact Or.inr ⟨v, hv⟩
    · rw [if_neg hcond]
      exact ih b

/-- Writing one shape row creates at most one new full row. -/
theorem countFull_mergeRowLoop (p : Piece) (sy : ℕ) (L : List ℕ) (b : Board) :
    countFull (mergeRowLoop p sy L b) ≤ countFull b + 1 := by
  rcases mergeRowLoop_cases p sy L b with h | ⟨v, hv⟩
  · rw [h]; omega
  · rw [hv]
    exact countP_set_le _ b _ v

/-- Merging rows one by one creates at most one full row per shape row. -/
theorem countFull_mergeLoop (p : Piece) (L : List ℕ) :
    ∀ b : Board, countFull (mergeLoop p L b) ≤ countFull b + L.length := by
  induction L with
  | nil => intro b; simp [mergeLoop]
  | cons sy rest ih =>
    intro b
    show countFull (mergeLoop p rest _) ≤ _
    have h1 := ih (mergeRowLoop p sy (List.range (p.shape.getD sy []).length) b)
    have h2 := countFull_mergeRowLoop p sy
      (List.range (p.shape.getD sy []).length) b
    simp only [List.length_cons]
    omega

/-- A merge creates at most one full row per shape row. -/
theorem countFull_merge (b : Board) (p : Piece) :
    countFull (merge b p) ≤ countFull b + p.shape.length := by
  unfold merge
  have := countFull_mergeLoop p (List.range p.shape.length) b
  simpa using this

/-- Non-full rows and full rows partition a board. -/
theorem countP_not_add (l : Board) :
    l.countP (fun r => !(isFull r)) + countFull l = l.length := by
  unfold countFull
  induction l with
  | nil => rfl
  | cons a t ih =>
    rw [List.countP_cons, List.countP_cons]
    cases h : isFull a <;> simp [h] <;> omega

/-- The lock-step invariant: at every reachable state the level equals
`lines / 10`, the board has no full rows, and the board has 20 rows. -/
theorem reach_inv : ∀ s : GState, Reach s →
    s.level = s.lines / LINES_PER_LEVEL ∧ countFull s.board = 0 ∧
    s.board.length = ROWS := by
  intro s hs
  induction hs with
  | init =>
    refine ⟨rfl, by decide, by decide⟩
  | lock s1 p hr hshape ih =>
    obtain ⟨hlev, hfull, hlen⟩ := ih
    have hlen1 : (merge s1.board p).length = ROWS := by
      unfold merge
      rw [length_mergeLoop, hlen]
    have hcnt : countFull (merge s1.board p) ≤ 4 := by
      have := countFull_merge s1.board p
      omega
    have hsw := sweep_spec (merge s1.board p) hlen1
    have hcl : (sweep (merge s1.board p)).2 = countFull (merge s1.board p) := by
      rw [hsw]
    have hnew : countFull (sweep (merge s1.board p)).1 = 0 := by
      rw [hsw]
      have h1 : countFull (List.replicate (countFull (merge s1.board p))
          emptyRow) = 0 := by
        unfold countFull
        rw [List.countP_eq_zero]
        intro a ha
        rw [List.eq_of_mem_replicate ha]
        simp [isFull_emptyRow]
      have h2 : countFull ((merge s1.board p).filter
          (fun r => !(isFull r))) = 0 := by
        unfold countFull
        rw [List.countP_eq_zero]
        intro a ha
        have hx := (List.mem_filter.mp ha).2
        simp only [Bool.not_eq_true'] at hx
        simp [hx]
      unfold countFull at h1 h2 ⊢
      rw [List.countP_append, h1, h2]
    have hlen2 : (sweep (merge s1.board p)).1.length = ROWS := by
      rw [hsw]
      rw [List.length_append, List.length_replicate,
        ← List.countP_eq_length_filter]
      have := countP_not_add (merge s1.board p)
      omega
    unfold lockStep
    dsimp only
    by_cases hz : (sweep (merge s1.board p)).2 ≠ 0
    · rw [if_pos hz]
      refine ⟨?_, hnew, hlen2⟩
      show (if s1.level < (s1.lines + (sweep (merge s1.board p)).2) /
          LINES_PER_LEVEL then s1.level + 1 else s1.level) =
        (s1.lines + (sweep (merge s1.board p)).2) / LINES_PER_LEVEL
      have h10 : LINES_PER_LEVEL = 10 := rfl
      rw [h10] at hlev ⊢
      split_ifs with hlt <;> omega
    · rw [if_neg hz]
      exact ⟨hlev, hnew, hlen2⟩

/-- C2: at every reachable game state - in particular after every locking
procedure (lock-delay expiry and hard drop run the same code) - the level
equals the total cleared-line count integer-divided by 10.  (A single
lock clears at most 4 lines, so a clear can never cross two 10-line
thresholds at once; the `level += 1` update therefore always lands
exactly on `lines / 10`.) -/
theorem reach_level_div10 (s : GState) (h : Reach s) :
    s.level = s.lines / 10 :=
  (reach_inv s h).1

/-- C2 witness: the invariant applied to the initial state and to the
state after locking an O piece on the floor. -/
theorem reach_level_div10_witness :
    Reach ⟨initBoard, 0, 0, 0⟩ ∧
    (⟨initBoard, 0, 0, 0⟩ : GState).level =
      (⟨initBoard, 0, 0, 0⟩ : GState).lines / 10 ∧
    Reach (lockStep ⟨initBoard, 0, 0, 0⟩ ⟨Kind.O, SHAPES Kind.O, 0, 4, 18⟩) ∧
    (lockStep ⟨initBoard, 0, 0, 0⟩ ⟨Kind.O, SHAPES Kind.O, 0, 4, 18⟩).level =
      (lockStep ⟨initBoard, 0, 0, 0⟩ ⟨Kind.O, SHAPES Kind.O, 0, 4, 18⟩).lines / 10 :=
  ⟨Reach.init, reach_level_div10 _ Reach.init,
   Reach.lock _ _ Reach.init (by decide),
   reach_level_div10 _ (Reach.lock _ _ Reach.init (by decide))⟩

end Tetris2
